import Mathlib

/-!
Verification of the log-storage and timeline-layout core of a small
daily-log GUI application (src/app.py).

The embedding models:
* Python string primitives used by the code (code-point lexicographic
  comparison, strip, split, the int() conversion);
* the JSON-Lines persistence layer (json.dumps with ensure_ascii=False on
  flat string-valued objects, json.loads, per-date append-only files);
* the schedule-canvas layout algorithm (time parsing with defensive
  fallback, fractional row offsets, clamping, severity colors).

Machine reals are modelled by Rat: all quantities involved (hours, minutes
divided by 60, pixel offsets) are exactly representable and the orderings
proved here are decided by gaps far wider than double rounding error.
-/

/-! ## Python string primitives -/

/-- Code-point lexicographic comparison of character lists, as used by
Python string `<=` and hence by `sorted` on strings. -/
def charsLe : List Char → List Char → Bool
  | [], _ => true
  | _ :: _, [] => false
  | a :: as, b :: bs =>
    if a.toNat < b.toNat then true
    else if b.toNat < a.toNat then false
    else charsLe as bs

/-- Whitespace recognized by Python str.strip and str.isspace. -/
def pyIsSpace (c : Char) : Bool :=
  let n := c.toNat
  (9 ≤ n && n ≤ 13) || n == 32 || (28 ≤ n && n ≤ 31) || n == 133 || n == 160 ||
  n == 5760 || (8192 ≤ n && n ≤ 8202) || n == 8232 || n == 8233 || n == 8239 ||
  n == 8287 || n == 12288

/-- Python str.strip on a character list. -/
def pyStripList (cs : List Char) : List Char :=
  ((cs.dropWhile pyIsSpace).reverse.dropWhile pyIsSpace).reverse

/-- Python str.strip. -/
def pyStrip (s : String) : String := ⟨pyStripList s.data⟩

/-- Python str.split with a single-character separator: splits at every
occurrence, keeping empty pieces. -/
def splitOnChar (sep : Char) : List Char → List (List Char)
  | [] => [[]]
  | c :: r =>
    match splitOnChar sep r with
    | [] => if c = sep then [[], []] else [[c]]
    | l :: ls => if c = sep then [] :: l :: ls else (c :: l) :: ls

/-- Digit run accumulator for `pyIntOfChars`; a single underscore is
allowed between two digits (Python numeric literals/int() rule). -/
def digitsValAux : Nat → List Char → Option Nat
  | acc, [] => some acc
  | acc, c :: r =>
    if c.isDigit then digitsValAux (10 * acc + (c.toNat - 48)) r
    else if c = '_' then
      match r with
      | d :: r2 => if d.isDigit then digitsValAux (10 * acc + (d.toNat - 48)) r2 else none
      | [] => none
    else none

/-- Value of a nonempty ASCII digit run (underscores permitted between
digits, never leading, trailing or doubled). -/
def digitsVal : List Char → Option Nat
  | [] => none
  | c :: r => if c.isDigit then digitsValAux (c.toNat - 48) r else none

/-- Python int(str): optional surrounding whitespace, optional sign,
nonempty digit run. -/
def pyInt (s : String) : Option Int :=
  match pyStripList s.data with
  | '+' :: r => (digitsVal r).map (fun n => (n : Int))
  | '-' :: r => (digitsVal r).map (fun n => -(n : Int))
  | r => (digitsVal r).map (fun n => (n : Int))

/-! ## JSON values, serialization and parsing

The persisted format is newline-delimited JSON.  The application only ever
writes flat objects whose values are strings, but `load_entries` runs the
stored text through the general JSON reader, so parsing covers the full
value grammar (numbers are kept as their lexical token: no claim touches
numeric semantics). -/

inductive Json where
  | null : Json
  | bool (b : Bool) : Json
  | num (tok : String) : Json
  | str (s : String) : Json
  | arr (items : List Json) : Json
  | obj (members : List (String × Json)) : Json
deriving Repr

/-- Lowercase hex digit, as produced by the %04x formatting that
json.dumps uses for control-character escapes. -/
def hexDigit : Nat → Char
  | 0 => '0' | 1 => '1' | 2 => '2' | 3 => '3' | 4 => '4'
  | 5 => '5' | 6 => '6' | 7 => '7' | 8 => '8' | 9 => '9'
  | 10 => 'a' | 11 => 'b' | 12 => 'c' | 13 => 'd' | 14 => 'e' | 15 => 'f'
  | _ => '0'

/-- Numeric value of one hex digit, upper or lower case. -/
def hexVal (c : Char) : Option Nat :=
  let n := c.toNat
  if 48 ≤ n ∧ n ≤ 57 then some (n - 48)
  else if 97 ≤ n ∧ n ≤ 102 then some (n - 87)
  else if 65 ≤ n ∧ n ≤ 70 then some (n - 55)
  else none

/-- String-character escaping of json.dumps with ensure_ascii=False:
quote and backslash escaped, the five named control escapes, \u00XX for
the remaining control characters, everything else verbatim. -/
def escapeChar (c : Char) : List Char :=
  if c = '"' then ['\\', '"']
  else if c = '\\' then ['\\', '\\']
  else if c = '\n' then ['\\', 'n']
  else if c = '\r' then ['\\', 'r']
  else if c = '\t' then ['\\', 't']
  else if c = '\x08' then ['\\', 'b']
  else if c = '\x0c' then ['\\', 'f']
  else if c.toNat < 32 then ['\\', 'u', '0', '0', hexDigit (c.toNat / 16), hexDigit (c.toNat % 16)]
  else [c]

def escapeList : List Char → List Char
  | [] => []
  | c :: r => escapeChar c ++ escapeList r

/-- json.dumps of a string value. -/
def dumpStringChars (s : String) : List Char :=
  '"' :: escapeList s.data ++ ['"']

/-- json.dumps of one object member, with the default ": " key separator. -/
def dumpMemberChars (kv : String × String) : List Char :=
  dumpStringChars kv.1 ++ ':' :: ' ' :: dumpStringChars kv.2

/-- Join object members with the default ", " item separator. -/
def joinMembers : List (List Char) → List Char
  | [] => []
  | [m] => m
  | m :: ms => m ++ ',' :: ' ' :: joinMembers ms

/-- json.dumps of a flat string-valued object, with the default ", " item
separator (exactly what `append_entry` receives from the application). -/
def dumpObjChars (kvs : List (String × String)) : List Char :=
  '{' :: joinMembers (kvs.map dumpMemberChars) ++ ['}']

/-- JSON insignificant whitespace. -/
def jsonWs (c : Char) : Bool :=
  c = ' ' || c = '\t' || c = '\n' || c = '\r'

def skipWs : List Char → List Char
  | [] => []
  | c :: r => if jsonWs c then skipWs r else c :: r

/-- Value of four hex digits. -/
def hex4 (a b c d : Nat) : Nat := ((a * 16 + b) * 16 + c) * 16 + d

/-- Lookahead for the low half of a surrogate pair: a further \uXXXX
escape whose value lies in the low-surrogate range. -/
def lowSurrogate : List Char → Option (Nat × List Char)
  | '\\' :: 'u' :: g1 :: g2 :: g3 :: g4 :: r4 =>
    match hexVal g1, hexVal g2, hexVal g3, hexVal g4 with
    | some a2, some b2, some c3, some d2 =>
      if 56320 ≤ hex4 a2 b2 c3 d2 ∧ hex4 a2 b2 c3 d2 ≤ 57343 then
        some (hex4 a2 b2 c3 d2, r4)
      else none
    | _, _, _, _ => none
  | _ => none

/-- Decoder for one backslash escape (the characters after the
backslash): the two-character named escapes, and \uXXXX with surrogate
pairs combined; a high surrogate not followed by a low-surrogate escape
stays a lone code unit, as in the CPython scanner. -/
def decodeEscape : List Char → Option (Char × List Char)
  | '"' :: r => some ('"', r)
  | '\\' :: r => some ('\\', r)
  | '/' :: r => some ('/', r)
  | 'b' :: r => some ('\x08', r)
  | 'f' :: r => some ('\x0c', r)
  | 'n' :: r => some ('\n', r)
  | 'r' :: r => some ('\r', r)
  | 't' :: r => some ('\t', r)
  | 'u' :: h1 :: h2 :: h3 :: h4 :: r3 =>
    match hexVal h1, hexVal h2, hexVal h3, hexVal h4 with
    | some a, some b, some c2, some d =>
      if 55296 ≤ hex4 a b c2 d ∧ hex4 a b c2 d ≤ 56319 then
        match lowSurrogate r3 with
        | some (m, r4) =>
          some (Char.ofNat (65536 + (hex4 a b c2 d - 55296) * 1024 + (m - 56320)), r4)
        | none => some (Char.ofNat (hex4 a b c2 d), r3)
      else some (Char.ofNat (hex4 a b c2 d), r3)
    | _, _, _, _ => none
  | _ => none

set_option maxHeartbeats 1000000 in
/-- JSON string-body reader (after the opening quote), strict mode: raw
control characters are rejected, escapes go through `decodeEscape`, the
accumulator holds the decoded prefix reversed.  Every step consumes at
least one input character, so the fuel `parseString` supplies can never
run out before the input does; it only makes the recursion structural. -/
def parseStringAux : Nat → List Char → List Char → Option (String × List Char)
  | 0, _, _ => none
  | _ + 1, _, [] => none
  | fuel + 1, acc, c :: rest =>
    if c = '"' then some (⟨acc.reverse⟩, rest)
    else if c = '\\' then
      match decodeEscape rest with
      | some (d, rest2) => parseStringAux fuel (d :: acc) rest2
      | none => none
    else if c.toNat < 32 then none
    else parseStringAux fuel (c :: acc) rest

def parseString (cs : List Char) : Option (String × List Char) :=
  parseStringAux (cs.length + 1) [] cs

/-- Longest ASCII digit prefix and the rest. -/
def takeDigits : List Char → List Char × List Char
  | [] => ([], [])
  | c :: r =>
    if c.isDigit then
      match takeDigits r with
      | (d, r2) => (c :: d, r2)
    else ([], c :: r)

/-- JSON number token: sign, integer part without superfluous leading
zero, optional fraction and exponent.  The lexical token is returned
unevaluated. -/
def parseNumTok (cs : List Char) : Option (String × List Char) :=
  let signed : List Char × List Char :=
    match cs with
    | '-' :: r => (['-'], r)
    | _ => ([], cs)
  match takeDigits signed.2 with
  | ([], _) => none
  | (intPart, afterInt) =>
    if intPart.length > 1 ∧ intPart.headD '0' = '0' then none
    else
      let fracced : Option (List Char × List Char) :=
        match afterInt with
        | '.' :: r =>
          match takeDigits r with
          | ([], _) => none
          | (fr, r2) => some ('.' :: fr, r2)
        | _ => some ([], afterInt)
      match fracced with
      | none => none
      | some (fracPart, afterFrac) =>
        let exped : Option (List Char × List Char) :=
          match afterFrac with
          | 'e' :: '+' :: r | 'E' :: '+' :: r =>
            match takeDigits r with
            | ([], _) => none
            | (ex, r2) => some ('e' :: '+' :: ex, r2)
          | 'e' :: '-' :: r | 'E' :: '-' :: r =>
            match takeDigits r with
            | ([], _) => none
            | (ex, r2) => some ('e' :: '-' :: ex, r2)
          | 'e' :: r | 'E' :: r =>
            match takeDigits r with
            | ([], _) => none
            | (ex, r2) => some ('e' :: ex, r2)
          | _ => some ([], afterFrac)
        match exped with
        | none => none
        | some (expPart, rest) =>
          some (⟨signed.1 ++ intPart ++ fracPart ++ expPart⟩, rest)

mutual

/-- JSON value reader; the fuel only bounds recursion depth and member
counts, `jsonParseLine` supplies more than any input can consume. -/
def parseVal : Nat → List Char → Option (Json × List Char)
  | 0, _ => none
  | fuel + 1, cs =>
    match skipWs cs with
    | 'n' :: 'u' :: 'l' :: 'l' :: r => some (.null, r)
    | 't' :: 'r' :: 'u' :: 'e' :: r => some (.bool true, r)
    | 'f' :: 'a' :: 'l' :: 's' :: 'e' :: r => some (.bool false, r)
    | '"' :: r =>
      match parseString r with
      | some (s, r2) => some (.str s, r2)
      | none => none
    | '{' :: r =>
      match skipWs r with
      | '}' :: r2 => some (.obj [], r2)
      | r2 =>
        match parseMembers fuel r2 with
        | some (ms, r3) => some (.obj ms, r3)
        | none => none
    | '[' :: r =>
      match skipWs r with
      | ']' :: r2 => some (.arr [], r2)
      | r2 =>
        match parseElems fuel r2 with
        | some (xs, r3) => some (.arr xs, r3)
        | none => none
    | c :: r =>
      if c = '-' || c.isDigit then
        match parseNumTok (c :: r) with
        | some (tok, r2) => some (.num tok, r2)
        | none => none
      else none
    | [] => none

/-- Object members after the opening brace of a nonempty object: a quoted
key, a colon, a value, then a comma and more members or the closing
brace. -/
def parseMembers : Nat → List Char → Option (List (String × Json) × List Char)
  | 0, _ => none
  | fuel + 1, cs =>
    match skipWs cs with
    | '"' :: r =>
      match parseString r with
      | none => none
      | some (k, r2) =>
        match skipWs r2 with
        | ':' :: r3 =>
          match parseVal fuel r3 with
          | none => none
          | some (v, r4) =>
            match skipWs r4 with
            | ',' :: r5 =>
              match parseMembers fuel r5 with
              | some (ms, r6) => some ((k, v) :: ms, r6)
              | none => none
            | '}' :: r5 => some ([(k, v)], r5)
            | _ => none
        | _ => none
    | _ => none

/-- Array elements of a nonempty array. -/
def parseElems : Nat → List Char → Option (List Json × List Char)
  | 0, _ => none
  | fuel + 1, cs =>
    match parseVal fuel cs with
    | none => none
    | some (v, r) =>
      match skipWs r with
      | ',' :: r2 =>
        match parseElems fuel r2 with
        | some (xs, r3) => some (v :: xs, r3)
        | none => none
      | ']' :: r2 => some ([v], r2)
      | _ => none

end

/-- json.loads on one stored line: a single JSON value with only
whitespace around it. -/
def jsonParseLine (cs : List Char) : Option Json :=
  match parseVal (cs.length + 1) cs with
  | some (v, rest) => if skipWs rest = [] then some v else none
  | none => none

/-! ## LogStorage (src/app.py lines 26-53)

The file system visible to the program is a finite map from the date stem
of the per-day file to its text content, modelled as an association list
with unique keys; the file named STEM.jsonl exists exactly when STEM is a
key.  `datetime` values only reach storage through the two strftime
formats the code uses, so dates are passed as their formatted YYYY-MM-DD
strings. -/

abbrev FileSys := List (String × String)

def lookupFile : FileSys → String → Option String
  | [], _ => none
  | (k, c) :: rest, d => if k = d then some c else lookupFile rest d

/-- Open for append (creating the file when absent) and write a chunk. -/
def appendFile : FileSys → String → String → FileSys
  | [], d, s => [(d, s)]
  | (k, c) :: rest, d, s =>
    if k = d then (k, c ++ s) :: rest else (k, c) :: appendFile rest d s

/-- LogStorage.append_entry: serialize the payload with json.dumps
(ensure_ascii=False) and append it plus a newline to the file for the
date. -/
def append_entry (fs : FileSys) (d : String) (payload : List (String × String)) : FileSys :=
  appendFile fs d ⟨dumpObjChars payload ++ ['\n']⟩

/-- Universal-newline translation performed by text-mode reading: CRLF
and lone CR both become LF. -/
def normalizeNewlines : List Char → List Char
  | [] => []
  | '\r' :: '\n' :: r => '\n' :: normalizeNewlines r
  | '\r' :: r => '\n' :: normalizeNewlines r
  | c :: r => c :: normalizeNewlines r

/-- Line iteration over file content.  (Python line iteration keeps the
terminating newline on each line and yields no final empty line; both
differences are invisible through the blank-line filter and the
whitespace-tolerant `jsonParseLine`, so lines are split off without their
terminators and a trailing empty piece is produced instead.) -/
def fileLines (content : String) : List (List Char) :=
  splitOnChar '\n' (normalizeNewlines content.data)

/-- A line that str.strip maps to the empty string. -/
def isBlank (l : List Char) : Bool := l.all pyIsSpace

/-- Parse a list of stored lines left to right; the first line that is
not valid JSON aborts the whole computation (the exception raised inside
the list comprehension). -/
def parseLines : List (List Char) → Option (List Json)
  | [] => some []
  | l :: ls =>
    match jsonParseLine l, parseLines ls with
    | some j, some js => some (j :: js)
    | _, _ => none

/-- LogStorage.load_entries: missing file gives the empty list, otherwise
every non-blank line is parsed as JSON; the first malformed line makes
the whole call fail (the list comprehension propagates the exception),
modelled by `none`. -/
def load_entries (fs : FileSys) (d : String) : Option (List Json) :=
  match lookupFile fs d with
  | none => some []
  | some content =>
    parseLines ((fileLines content).filter (fun l => !isBlank l))

/-- Stem of a globbed file name (the name always ends in ".jsonl"). -/
def stemOf (n : String) : String := ⟨n.data.take (n.data.length - 6)⟩

/-- LogStorage.available_dates: glob the per-day files, sort the names
descending, take the stems; fall back to the current date when the
directory has no log files. -/
def available_dates (fs : FileSys) (today : String) : List String :=
  let names := fs.map (fun kv => kv.1 ++ ".jsonl")
  let dates := ((names.mergeSort (fun a b => charsLe a.data b.data)).reverse).map stemOf
  if dates.isEmpty then [today] else dates

/-! ## ScheduleCanvas (src/app.py lines 56-173)

Entries reaching the canvas are dictionaries with string values (the four
fields written by the form, or any subset when files are edited by hand);
a dictionary is an association list with unique keys.  The renderer is a
pure function from the entry list to the list of drawn cards; pixel
coordinates are exact rationals. -/

abbrev PyDict := List (String × String)

/-- dict.get with a default. -/
def dictGet : PyDict → String → String → String
  | [], _, default => default
  | (k, v) :: rest, key, default => if k = key then v else dictGet rest key default

/-- dict key membership. -/
def dictHas : PyDict → String → Bool
  | [], _ => false
  | (k, _) :: rest, key => k = key || dictHas rest key

def SEVERITY_LEVELS : List (String × String) :=
  [("Normal", "#0052CC"), ("Alert", "#FFAB00"), ("Critical", "#DE350B")]

/-- Accent color: first severity table entry with matching level name,
defaulting to the Normal blue. -/
def severityColor (severity : String) : String :=
  match SEVERITY_LEVELS.find? (fun lc => lc.1 == severity) with
  | some lc => lc.2
  | none => "#0052CC"

def start_hour : Int := 7
def end_hour : Int := 21
def row_height : Rat := 44
def top_margin : Rat := 48

/-- int() over the colon-separated parts, left to right, failing at the
first part that is not a valid integer literal (the list comprehension in
_draw_entry_card). -/
def mapPyInt : List (List Char) → Option (List Int)
  | [] => some []
  | p :: ps =>
    match pyInt ⟨p⟩, mapPyInt ps with
    | some n, some ns => some (n :: ns)
    | _, _ => none

/-- The try block of _draw_entry_card: split the time string on colons,
convert every part with int, and unpack hour and minute from the first
two parts; any conversion or unpack failure is caught by the caller. -/
def parseClock (s : String) : Option (Int × Int) :=
  match mapPyInt (splitOnChar ':' s.data) with
  | some (h :: m :: _) => some (h, m)
  | _ => none

/-- One rendered entry card (the draw instructions that depend on the
entry; static geometry such as card height and margins is omitted). -/
structure Card where
  y : Rat
  timeText : String
  systemText : String
  messageText : String
  color : String
deriving Repr, DecidableEq

/-- ScheduleCanvas._draw_entry_card. -/
def draw_entry_card (entry : PyDict) : Card :=
  let time_str := dictGet entry "time" "00:00"
  let hm : Int × Int :=
    match parseClock time_str with
    | some p => p
    | none => (start_hour, 0)
  let row_offset : Rat := ((hm.1 : Rat) + (hm.2 : Rat) / 60) - (start_hour : Rat)
  let clamped : Rat := max 0 (min row_offset ((end_hour : Rat) - (start_hour : Rat)))
  { y := top_margin + clamped * row_height
    timeText := time_str
    systemText := dictGet entry "system" ""
    messageText := dictGet entry "message" ""
    color := severityColor (dictGet entry "severity" "Normal") }

/-- The sort in ScheduleCanvas._redraw: ascending by the "time" value
with default "", Python sorted (stable, code-point string order). -/
def sortEntries (es : List PyDict) : List PyDict :=
  es.mergeSort (fun a b => charsLe (dictGet a "time" "").data (dictGet b "time" "").data)

/-- ScheduleCanvas._redraw restricted to the entry cards: the base grid
does not depend on the entries, and each sorted entry produces exactly
one card, in sorted order. -/
def renderCards (es : List PyDict) : List Card :=
  (sortEntries es).map draw_entry_card

/-! ## LogApp._save_entry (src/app.py lines 384-398) -/

/-- Result of the save action: whether the missing-message warning was
shown, and the entry appended to storage (if any). -/
structure SaveResult where
  fs : FileSys
  warned : Bool
  saved : Option PyDict
deriving Repr

/-- LogApp._save_entry: strip the message text; when empty, warn and
return before touching storage; otherwise build the four-field entry
stamped with the current time and append it to the current day's file.
The current datetime is passed as its two formatted strings. -/
def save_entry (fs : FileSys) (rawMessage system severity : String)
    (nowDate nowTime : String) : SaveResult :=
  let message := pyStrip rawMessage
  if message = "" then
    { fs := fs, warned := true, saved := none }
  else
    let entry : PyDict :=
      [("time", nowTime), ("system", system), ("severity", severity), ("message", message)]
    { fs := append_entry fs nowDate entry, warned := false, saved := some entry }

/-! ## The stored record of one log entry (spec section 3). -/

structure LogEntry where
  time : String
  system : String
  severity : String
  message : String
deriving Repr, DecidableEq

def LogEntry.payload (e : LogEntry) : List (String × String) :=
  [("time", e.time), ("system", e.system), ("severity", e.severity), ("message", e.message)]

def LogEntry.json (e : LogEntry) : Json :=
  .obj [("time", .str e.time), ("system", .str e.system),
        ("severity", .str e.severity), ("message", .str e.message)]

/-- A sequence of append_entry calls for one date. -/
def appendEntries (fs : FileSys) (d : String) (es : List LogEntry) : FileSys :=
  es.foldl (fun acc e => append_entry acc d e.payload) fs

/-- A well-formed zero-padded clock string: HH:MM or HH:MM:SS with digit
fields and a minute value below 60 (the shape strftime %H:%M[:%S]
produces). -/
def wfClock (s : String) : Bool :=
  match s.data with
  | [a, b, ':', c, d] =>
    a.isDigit && b.isDigit && c.isDigit && d.isDigit && decide (c ≤ '5')
  | [a, b, ':', c, d, ':', e, f] =>
    a.isDigit && b.isDigit && c.isDigit && d.isDigit && decide (c ≤ '5') &&
      e.isDigit && f.isDigit
  | _ => false

/-! ## General lemmas about the embedded primitives -/

theorem char_eq_of_toNat_eq {x y : Char} (h : x.toNat = y.toNat) : x = y := by
  have hmono : StrictMono Char.toNat := fun _ _ hab => hab
  exact hmono.injective h

theorem charsLe_cons_iff {x y : Char} {xs ys : List Char} :
    charsLe (x :: xs) (y :: ys) = true ↔
      x.toNat < y.toNat ∨ (x.toNat = y.toNat ∧ charsLe xs ys = true) := by
  simp only [charsLe]
  by_cases h1 : x.toNat < y.toNat
  · simp [h1]
  · by_cases h2 : y.toNat < x.toNat
    · simp [h1, h2]
      omega
    · have hxy : x.toNat = y.toNat := by omega
      simp [h1, h2, hxy]

theorem charsLe_total (a b : List Char) : (charsLe a b || charsLe b a) = true := by
  induction a generalizing b with
  | nil => simp [charsLe]
  | cons x xs ih =>
    cases b with
    | nil => simp [charsLe]
    | cons y ys =>
      rcases Nat.lt_trichotomy x.toNat y.toNat with hlt | heq | hgt
      · simp [charsLe_cons_iff, hlt]
      · have := ih ys
        simp only [Bool.or_eq_true] at this
        simp only [charsLe_cons_iff, Bool.or_eq_true]
        rcases this with h | h
        · exact Or.inl (Or.inr ⟨heq, h⟩)
        · exact Or.inr (Or.inr ⟨heq.symm, h⟩)
      · simp [charsLe_cons_iff, hgt]

theorem charsLe_trans {a b c : List Char} (h1 : charsLe a b = true)
    (h2 : charsLe b c = true) : charsLe a c = true := by
  induction a generalizing b c with
  | nil => simp [charsLe]
  | cons x xs ih =>
    cases b with
    | nil => simp [charsLe] at h1
    | cons y ys =>
      cases c with
      | nil => simp [charsLe] at h2
      | cons z zs =>
        rw [charsLe_cons_iff] at h1 h2 ⊢
        rcases h1 with h1 | ⟨h1e, h1r⟩
        · rcases h2 with h2 | ⟨h2e, h2r⟩
          · exact Or.inl (by omega)
          · exact Or.inl (by omega)
        · rcases h2 with h2 | ⟨h2e, h2r⟩
          · exact Or.inl (by omega)
          · exact Or.inr ⟨by omega, ih h1r h2r⟩

theorem length_renderCards (es : List PyDict) : (renderCards es).length = es.length := by
  simp [renderCards, sortEntries]

theorem card_mem_renderCards {e : PyDict} {es : List PyDict} (h : e ∈ es) :
    draw_entry_card e ∈ renderCards es := by
  unfold renderCards sortEntries
  exact List.mem_map_of_mem _ ((List.mergeSort_perm es _).mem_iff.mpr h)

/-! ## Claims about LogStorage reads -/

/-- C6: for every date with no log file (zero appends for it),
load_entries returns the empty sequence rather than failing. -/
theorem load_entries_missing_file (fs : FileSys) (d : String)
    (h : lookupFile fs d = none) : load_entries fs d = some [] := by
  unfold load_entries
  rw [h]

theorem load_entries_missing_file_witness :
    lookupFile [] "2025-01-01" = none ∧ load_entries [] "2025-01-01" = some [] :=
  ⟨rfl, load_entries_missing_file [] "2025-01-01" rfl⟩

/-! ## Claims about the save action -/

/-- C8: a message that strips to empty is rejected with the user-visible
warning and the handler returns before any storage call: the file system
is unchanged and no entry is saved. -/
theorem save_entry_empty_message (fs : FileSys) (raw sys sev nowDate nowTime : String)
    (h : pyStrip raw = "") :
    save_entry fs raw sys sev nowDate nowTime = ⟨fs, true, none⟩ := by
  unfold save_entry
  rw [h]
  simp

theorem save_entry_empty_message_witness :
    pyStrip " \n  " = "" ∧
      save_entry [("2025-01-01", "old")] " \n  " "Radar" "Alert" "2025-01-01" "09:00:00" =
        ⟨[("2025-01-01", "old")], true, none⟩ :=
  ⟨by decide, save_entry_empty_message _ _ _ _ _ _ (by decide)⟩

/-! ## Claims about the card renderer -/

/-- C9: each card's accent color comes from looking the severity up in
the fixed severity table, and any severity outside the table falls back
to the Normal blue rather than failing. -/
theorem severity_color_lookup :
    (∀ e : PyDict, (draw_entry_card e).color = severityColor (dictGet e "severity" "Normal")) ∧
    severityColor "Normal" = "#0052CC" ∧ severityColor "Alert" = "#FFAB00" ∧
    severityColor "Critical" = "#DE350B" ∧
    (∀ s : String, s ≠ "Normal" → s ≠ "Alert" → s ≠ "Critical" →
      severityColor s = "#0052CC") := by
  refine ⟨fun e => rfl, by decide, by decide, by decide, ?_⟩
  intro s h1 h2 h3
  have e1 : ("Normal" == s) = false := beq_eq_false_iff_ne.mpr (fun hh => h1 hh.symm)
  have e2 : ("Alert" == s) = false := beq_eq_false_iff_ne.mpr (fun hh => h2 hh.symm)
  have e3 : ("Critical" == s) = false := beq_eq_false_iff_ne.mpr (fun hh => h3 hh.symm)
  simp [severityColor, SEVERITY_LEVELS, List.find?, e1, e2, e3]

theorem severity_color_lookup_witness :
    (draw_entry_card [("severity", "Bogus")]).color =
        severityColor (dictGet [("severity", "Bogus")] "severity" "Normal") ∧
      severityColor "Bogus" = "#0052CC" :=
  ⟨severity_color_lookup.1 [("severity", "Bogus")],
    severity_color_lookup.2.2.2.2 "Bogus" (by decide) (by decide) (by decide)⟩

/-- C4: an entry whose time string does not parse is neither dropped nor
an error: every entry yields exactly one card, the card is in the output,
and the fallback (start_hour, 0) puts it at the top of the visible window
(offset 0, y = top_margin). -/
theorem unparsable_time_defaults_to_top (es : List PyDict) (entry : PyDict)
    (hmem : entry ∈ es) (h : parseClock (dictGet entry "time" "00:00") = none) :
    (renderCards es).length = es.length ∧
      draw_entry_card entry ∈ renderCards es ∧
      (draw_entry_card entry).y = top_margin := by
  refine ⟨length_renderCards es, card_mem_renderCards hmem, ?_⟩
  simp only [draw_entry_card, h]
  norm_num [start_hour, end_hour, top_margin, row_height]

theorem unparsable_time_defaults_to_top_witness :
    parseClock (dictGet [("time", "bad")] "time" "00:00") = none ∧
      ((renderCards [[("time", "bad")]]).length = 1 ∧
        draw_entry_card [("time", "bad")] ∈ renderCards [[("time", "bad")]] ∧
        (draw_entry_card [("time", "bad")]).y = top_margin) :=
  ⟨by decide,
    unparsable_time_defaults_to_top [[("time", "bad")]] [("time", "bad")]
      (List.mem_singleton.mpr rfl) (by decide)⟩

/-- C3: for a parsable time the card sits at
top_margin + clamp((hour + minute/60) - startHour, 0, endHour - startHour)
* row_height with startHour = 7 and endHour = 21; the out-of-window time
23:30 clamps to the bottom row (offset 14) and is still rendered. -/
theorem parsable_time_layout (entry : PyDict) (h m : Int)
    (hp : parseClock (dictGet entry "time" "00:00") = some (h, m)) :
    start_hour = 7 ∧ end_hour = 21 ∧
      (draw_entry_card entry).y =
        top_margin + max 0 (min (((h : Rat) + (m : Rat) / 60) - 7) 14) * row_height ∧
      (draw_entry_card [("time", "23:30")]).y = top_margin + 14 * row_height ∧
      draw_entry_card [("time", "23:30")] ∈ renderCards [[("time", "23:30")]] := by
  refine ⟨rfl, rfl, ?_, ?_, card_mem_renderCards (List.mem_singleton.mpr rfl)⟩
  · simp only [draw_entry_card, hp]
    norm_num [start_hour, end_hour]
  · have hp2 : parseClock (dictGet [("time", "23:30")] "time" "00:00") = some (23, 30) := by
      decide
    simp only [draw_entry_card, hp2]
    norm_num [start_hour, end_hour, top_margin, row_height]

theorem parsable_time_layout_witness :
    parseClock (dictGet [("time", "09:30")] "time" "00:00") = some (9, 30) ∧
      (start_hour = 7 ∧ end_hour = 21 ∧
        (draw_entry_card [("time", "09:30")]).y =
          top_margin +
            max 0 (min (((((9 : Int)) : Rat) + (((30 : Int)) : Rat) / 60) - 7) 14) * row_height ∧
        (draw_entry_card [("time", "23:30")]).y = top_margin + 14 * row_height ∧
        draw_entry_card [("time", "23:30")] ∈ renderCards [[("time", "23:30")]]) :=
  ⟨by decide, parsable_time_layout [("time", "09:30")] 9 30 (by decide)⟩

/-! ## Well-formed clock strings: parsing and monotone layout -/

theorem isDigit_bounds {c : Char} (h : c.isDigit = true) :
    48 ≤ c.toNat ∧ c.toNat ≤ 57 := by
  simp [Char.isDigit] at h
  exact h

theorem digit_ne {c : Char} (h : c.isDigit = true) {d : Char}
    (hd : d.isDigit = false) : c ≠ d := by
  intro he
  rw [he, hd] at h
  exact Bool.noConfusion h

theorem digit_not_space {c : Char} (h : c.isDigit = true) : pyIsSpace c = false := by
  have hb := isDigit_bounds h
  simp [pyIsSpace]
  omega

theorem splitClock5 {a b c d : Char} (ha : ¬a = ':') (hb : ¬b = ':')
    (hc : ¬c = ':') (hd : ¬d = ':') :
    splitOnChar ':' [a, b, ':', c, d] = [[a, b], [c, d]] := by
  simp [splitOnChar, ha, hb, hc, hd]

theorem splitClock8 {a b c d e f : Char} (ha : ¬a = ':') (hb : ¬b = ':')
    (hc : ¬c = ':') (hd : ¬d = ':') (he : ¬e = ':') (hf : ¬f = ':') :
    splitOnChar ':' [a, b, ':', c, d, ':', e, f] = [[a, b], [c, d], [e, f]] := by
  simp [splitOnChar, ha, hb, hc, hd, he, hf]

theorem pyStripList_digits2 {a b : Char} (ha : a.isDigit = true) (hb : b.isDigit = true) :
    pyStripList [a, b] = [a, b] := by
  simp [pyStripList, List.dropWhile, digit_not_space ha, digit_not_space hb]

theorem pyInt_digits2 {a b : Char} (ha : a.isDigit = true) (hb : b.isDigit = true) :
    pyInt ⟨[a, b]⟩ = some (((10 * (a.toNat - 48) + (b.toNat - 48) : Nat) : Int)) := by
  have hna : a ≠ '+' := digit_ne ha (by decide)
  have hnm : a ≠ '-' := digit_ne ha (by decide)
  unfold pyInt
  rw [show (⟨[a, b]⟩ : String).data = [a, b] from rfl, pyStripList_digits2 ha hb]
  split
  · rename_i r heq
    exact absurd (List.cons.injEq .. ▸ heq).1 hna
  · rename_i r heq
    exact absurd (List.cons.injEq .. ▸ heq).1 hnm
  · simp [digitsVal, digitsValAux, ha, hb]

theorem parseClock_wf5 {s : String} {a b c d : Char} (hdata : s.data = [a, b, ':', c, d])
    (ha : a.isDigit = true) (hb : b.isDigit = true)
    (hc : c.isDigit = true) (hd : d.isDigit = true) :
    parseClock s =
      some (((10 * (a.toNat - 48) + (b.toNat - 48) : Nat) : Int),
            ((10 * (c.toNat - 48) + (d.toNat - 48) : Nat) : Int)) := by
  unfold parseClock
  rw [hdata,
    splitClock5 (digit_ne ha (by decide)) (digit_ne hb (by decide))
      (digit_ne hc (by decide)) (digit_ne hd (by decide))]
  simp [mapPyInt, pyInt_digits2 ha hb, pyInt_digits2 hc hd]

theorem parseClock_wf8 {s : String} {a b c d e f : Char}
    (hdata : s.data = [a, b, ':', c, d, ':', e, f])
    (ha : a.isDigit = true) (hb : b.isDigit = true)
    (hc : c.isDigit = true) (hd : d.isDigit = true)
    (he : e.isDigit = true) (hf : f.isDigit = true) :
    parseClock s =
      some (((10 * (a.toNat - 48) + (b.toNat - 48) : Nat) : Int),
            ((10 * (c.toNat - 48) + (d.toNat - 48) : Nat) : Int)) := by
  unfold parseClock
  rw [hdata,
    splitClock8 (digit_ne ha (by decide)) (digit_ne hb (by decide))
      (digit_ne hc (by decide)) (digit_ne hd (by decide))
      (digit_ne he (by decide)) (digit_ne hf (by decide))]
  simp [mapPyInt, pyInt_digits2 ha hb, pyInt_digits2 hc hd, pyInt_digits2 he hf]

/-- Lexicographic order of two zero-padded clock prefixes HH:MM (whatever
follows the minute field) implies order of their minute counts, provided
the minute tens digits stay below 6. -/
theorem clock_cmp {a b c d a2 b2 c2 d2 : Char} {r r2 : List Char}
    (hle : charsLe (a :: b :: ':' :: c :: d :: r) (a2 :: b2 :: ':' :: c2 :: d2 :: r2) = true)
    (ba : 48 ≤ a.toNat ∧ a.toNat ≤ 57) (bb : 48 ≤ b.toNat ∧ b.toNat ≤ 57)
    (bc : 48 ≤ c.toNat ∧ c.toNat ≤ 57) (bd : 48 ≤ d.toNat ∧ d.toNat ≤ 57)
    (ba2 : 48 ≤ a2.toNat ∧ a2.toNat ≤ 57) (bb2 : 48 ≤ b2.toNat ∧ b2.toNat ≤ 57)
    (bc2 : 48 ≤ c2.toNat ∧ c2.toNat ≤ 57) (bd2 : 48 ≤ d2.toNat ∧ d2.toNat ≤ 57)
    (mc : c.toNat ≤ 53) (mc2 : c2.toNat ≤ 53) :
    60 * (10 * (a.toNat - 48) + (b.toNat - 48)) + (10 * (c.toNat - 48) + (d.toNat - 48)) ≤
      60 * (10 * (a2.toNat - 48) + (b2.toNat - 48)) +
        (10 * (c2.toNat - 48) + (d2.toNat - 48)) := by
  rw [charsLe_cons_iff] at hle
  rcases hle with h1 | ⟨h1, hle⟩
  · omega
  rw [charsLe_cons_iff] at hle
  rcases hle with h2 | ⟨h2, hle⟩
  · omega
  rw [charsLe_cons_iff] at hle
  rcases hle with h3 | ⟨h3, hle⟩
  · omega
  rw [charsLe_cons_iff] at hle
  rcases hle with h4 | ⟨h4, hle⟩
  · omega
  rw [charsLe_cons_iff] at hle
  rcases hle with h5 | ⟨h5, hle⟩
  · omega
  · omega

/-- The vertical position formula of _draw_entry_card is monotone in the
fractional hour offset. -/
theorem y_of_offset_mono {x1 x2 : Rat} (h : x1 ≤ x2) :
    top_margin +
        max 0 (min (x1 - ((start_hour : Int) : Rat)) (((end_hour : Int) : Rat) -
          ((start_hour : Int) : Rat))) * row_height ≤
      top_margin +
        max 0 (min (x2 - ((start_hour : Int) : Rat)) (((end_hour : Int) : Rat) -
          ((start_hour : Int) : Rat))) * row_height := by
  have h1 : min (x1 - ((start_hour : Int) : Rat)) (((end_hour : Int) : Rat) -
      ((start_hour : Int) : Rat)) ≤
      min (x2 - ((start_hour : Int) : Rat)) (((end_hour : Int) : Rat) -
        ((start_hour : Int) : Rat)) :=
    min_le_min (by linarith) le_rfl
  have h2 := max_le_max (le_refl (0 : Rat)) h1
  have h3 : (0 : Rat) ≤ row_height := by norm_num [row_height]
  nlinarith [mul_le_mul_of_nonneg_right h2 h3]

theorem y_mono_of_minutes {e1 e2 : PyDict} {H1 M1 H2 M2 : Nat}
    (hp1 : parseClock (dictGet e1 "time" "00:00") = some ((H1 : Int), (M1 : Int)))
    (hp2 : parseClock (dictGet e2 "time" "00:00") = some ((H2 : Int), (M2 : Int)))
    (key : 60 * H1 + M1 ≤ 60 * H2 + M2) :
    (draw_entry_card e1).y ≤ (draw_entry_card e2).y := by
  simp only [draw_entry_card, hp1, hp2]
  apply y_of_offset_mono
  have h60 : (0 : Rat) < 60 := by norm_num
  have hc : ((60 * H1 + M1 : Nat) : Rat) ≤ ((60 * H2 + M2 : Nat) : Rat) := by
    exact_mod_cast key
  have eq1 : (((H1 : Nat) : Int) : Rat) + (((M1 : Nat) : Int) : Rat) / 60 =
      ((60 * H1 + M1 : Nat) : Rat) / 60 := by
    push_cast
    ring
  have eq2 : (((H2 : Nat) : Int) : Rat) + (((M2 : Nat) : Int) : Rat) / 60 =
      ((60 * H2 + M2 : Nat) : Rat) / 60 := by
    push_cast
    ring
  rw [eq1, eq2]
  exact (div_le_div_right h60).mpr hc

/-- Between entries whose time values are well-formed zero-padded clock
strings, lexicographic string order implies vertical order of the cards. -/
theorem wf_time_y_mono {e1 e2 : PyDict}
    (w1 : wfClock (dictGet e1 "time" "00:00") = true)
    (w2 : wfClock (dictGet e2 "time" "00:00") = true)
    (hle : charsLe (dictGet e1 "time" "00:00").data (dictGet e2 "time" "00:00").data = true) :
    (draw_entry_card e1).y ≤ (draw_entry_card e2).y := by
  unfold wfClock at w1 w2
  split at w1
  case h_3 => exact absurd w1 (by decide)
  case h_1 a b c d heq1 =>
    simp only [Bool.and_eq_true, decide_eq_true_eq] at w1
    obtain ⟨⟨⟨⟨ha, hb⟩, hc⟩, hd⟩, hm5⟩ := w1
    have hp1 := parseClock_wf5 heq1 ha hb hc hd
    split at w2
    case h_3 => exact absurd w2 (by decide)
    case h_1 a2 b2 c2 d2 heq2 =>
      simp only [Bool.and_eq_true, decide_eq_true_eq] at w2
      obtain ⟨⟨⟨⟨ha2, hb2⟩, hc2⟩, hd2⟩, hm52⟩ := w2
      have hp2 := parseClock_wf5 heq2 ha2 hb2 hc2 hd2
      rw [heq1, heq2] at hle
      exact y_mono_of_minutes hp1 hp2
        (clock_cmp hle (isDigit_bounds ha) (isDigit_bounds hb) (isDigit_bounds hc)
          (isDigit_bounds hd) (isDigit_bounds ha2) (isDigit_bounds hb2) (isDigit_bounds hc2)
          (isDigit_bounds hd2) hm5 hm52)
    case h_2 a2 b2 c2 d2 e2c f2c heq2 =>
      simp only [Bool.and_eq_true, decide_eq_true_eq] at w2
      obtain ⟨⟨⟨⟨⟨⟨ha2, hb2⟩, hc2⟩, hd2⟩, hm52⟩, he2⟩, hf2⟩ := w2
      have hp2 := parseClock_wf8 heq2 ha2 hb2 hc2 hd2 he2 hf2
      rw [heq1, heq2] at hle
      exact y_mono_of_minutes hp1 hp2
        (clock_cmp hle (isDigit_bounds ha) (isDigit_bounds hb) (isDigit_bounds hc)
          (isDigit_bounds hd) (isDigit_bounds ha2) (isDigit_bounds hb2) (isDigit_bounds hc2)
          (isDigit_bounds hd2) hm5 hm52)
  case h_2 a b c d ec fc heq1 =>
    simp only [Bool.and_eq_true, decide_eq_true_eq] at w1
    obtain ⟨⟨⟨⟨⟨⟨ha, hb⟩, hc⟩, hd⟩, hm5⟩, he⟩, hf⟩ := w1
    have hp1 := parseClock_wf8 heq1 ha hb hc hd he hf
    split at w2
    case h_3 => exact absurd w2 (by decide)
    case h_1 a2 b2 c2 d2 heq2 =>
      simp only [Bool.and_eq_true, decide_eq_true_eq] at w2
      obtain ⟨⟨⟨⟨ha2, hb2⟩, hc2⟩, hd2⟩, hm52⟩ := w2
      have hp2 := parseClock_wf5 heq2 ha2 hb2 hc2 hd2
      rw [heq1, heq2] at hle
      exact y_mono_of_minutes hp1 hp2
        (clock_cmp hle (isDigit_bounds ha) (isDigit_bounds hb) (isDigit_bounds hc)
          (isDigit_bounds hd) (isDigit_bounds ha2) (isDigit_bounds hb2) (isDigit_bounds hc2)
          (isDigit_bounds hd2) hm5 hm52)
    case h_2 a2 b2 c2 d2 e2c f2c heq2 =>
      simp only [Bool.and_eq_true, decide_eq_true_eq] at w2
      obtain ⟨⟨⟨⟨⟨⟨ha2, hb2⟩, hc2⟩, hd2⟩, hm52⟩, he2⟩, hf2⟩ := w2
      have hp2 := parseClock_wf8 heq2 ha2 hb2 hc2 hd2 he2 hf2
      rw [heq1, heq2] at hle
      exact y_mono_of_minutes hp1 hp2
        (clock_cmp hle (isDigit_bounds ha) (isDigit_bounds hb) (isDigit_bounds hc)
          (isDigit_bounds hd) (isDigit_bounds ha2) (isDigit_bounds hb2) (isDigit_bounds hc2)
          (isDigit_bounds hd2) hm5 hm52)

/-- C2 counterexample: in the two-entry list below, "10:00" is
lexicographically smaller than "9:00" (code point '1' sorts before '9'),
yet its card is placed strictly lower on the canvas (larger y): the
lexicographically smaller time string does not in general sit at a
smaller-or-equal vertical position. -/
theorem lex_time_order_counterexample :
    ([("time", "10:00")] : PyDict) ∈
        ([[("time", "10:00")], [("time", "9:00")]] : List PyDict) ∧
      ([("time", "9:00")] : PyDict) ∈
        ([[("time", "10:00")], [("time", "9:00")]] : List PyDict) ∧
      charsLe ("10:00" : String).data ("9:00" : String).data = true ∧
      ¬ (draw_entry_card [("time", "10:00")]).y ≤ (draw_entry_card [("time", "9:00")]).y := by
  refine ⟨by decide, by decide, by decide, ?_⟩
  have h1 : parseClock (dictGet [("time", "10:00")] "time" "00:00") = some (10, 0) := by
    decide
  have h2 : parseClock (dictGet [("time", "9:00")] "time" "00:00") = some (9, 0) := by
    decide
  simp only [draw_entry_card, h1, h2]
  norm_num [start_hour, end_hour, top_margin, row_height]

/-- C2 (amended): the renderer draws the cards in ascending lexicographic
order of the time strings, and for entries whose time strings are
well-formed zero-padded HH:MM or HH:MM:SS values the lexicographically
smaller time is placed at a vertical position no lower (smaller or equal
y); in particular a 08:00 card is above a 09:00 card whichever input
order is used. -/
theorem timeline_order (es : List PyDict) (e1 e2 : PyDict)
    (m1 : e1 ∈ es) (m2 : e2 ∈ es)
    (w1 : wfClock (dictGet e1 "time" "00:00") = true)
    (w2 : wfClock (dictGet e2 "time" "00:00") = true)
    (hle : charsLe (dictGet e1 "time" "00:00").data (dictGet e2 "time" "00:00").data = true) :
    (draw_entry_card e1).y ≤ (draw_entry_card e2).y ∧
      ((sortEntries es).map (fun e => dictGet e "time" "")).Pairwise
        (fun a b => charsLe a.data b.data = true) ∧
      (draw_entry_card [("time", "08:00")]).y < (draw_entry_card [("time", "09:00")]).y ∧
      draw_entry_card [("time", "08:00")] ∈
        renderCards [[("time", "09:00")], [("time", "08:00")]] ∧
      draw_entry_card [("time", "09:00")] ∈
        renderCards [[("time", "09:00")], [("time", "08:00")]] ∧
      draw_entry_card [("time", "08:00")] ∈
        renderCards [[("time", "08:00")], [("time", "09:00")]] ∧
      draw_entry_card [("time", "09:00")] ∈
        renderCards [[("time", "08:00")], [("time", "09:00")]] := by
  refine ⟨wf_time_y_mono w1 w2 hle, ?_, ?_,
    card_mem_renderCards (by decide), card_mem_renderCards (by decide),
    card_mem_renderCards (by decide), card_mem_renderCards (by decide)⟩
  · have hs := @List.sorted_mergeSort PyDict
      (fun a b => charsLe (dictGet a "time" "").data (dictGet b "time" "").data)
      (fun a b c => charsLe_trans) (fun a b => charsLe_total _ _) es
    rw [List.pairwise_map]
    exact hs
  · have h1 : parseClock (dictGet [("time", "08:00")] "time" "00:00") = some (8, 0) := by
      decide
    have h2 : parseClock (dictGet [("time", "09:00")] "time" "00:00") = some (9, 0) := by
      decide
    simp only [draw_entry_card, h1, h2]
    norm_num [start_hour, end_hour, top_margin, row_height]

theorem timeline_order_witness :
    (draw_entry_card [("time", "08:30")]).y ≤ (draw_entry_card [("time", "09:15:10")]).y :=
  (timeline_order [[("time", "08:30")], [("time", "09:15:10")]]
    [("time", "08:30")] [("time", "09:15:10")]
    (by decide) (by decide) (by decide) (by decide) (by decide)).1

theorem sortEntries_sorted (es : List PyDict) :
    ((sortEntries es).map (fun e => dictGet e "time" "")).Pairwise
      (fun a b => charsLe a.data b.data = true) := by
  have hs := @List.sorted_mergeSort PyDict
    (fun a b => charsLe (dictGet a "time" "").data (dictGet b "time" "").data)
    (fun a b c => charsLe_trans) (fun a b => charsLe_total _ _) es
  rw [List.pairwise_map]
  exact hs

theorem dictGet_default {e : PyDict} {k dflt : String} (h : dictHas e k = false) :
    dictGet e k dflt = dflt := by
  induction e with
  | nil => rfl
  | cons kv rest ih =>
    simp only [dictHas, Bool.or_eq_false_iff, decide_eq_false_iff_not] at h
    simp [dictGet, h.1, ih h.2]

/-- C10: rendering is total on string-valued entry dictionaries: every
entry produces exactly one card (none dropped, no failure), the draw
order is ascending in the sort key dictGet "time" "" (so a missing time
key, whose sort key "" precedes every other string, sorts first), a
missing time is drawn as "00:00" and clamps to the top of the window, a
missing system or message renders as the empty string, and a missing
severity gets the Normal color. -/
theorem render_total_on_dicts (es : List PyDict) (e : PyDict) :
    (renderCards es).length = es.length ∧
      ((sortEntries es).map (fun x => dictGet x "time" "")).Pairwise
        (fun a b => charsLe a.data b.data = true) ∧
      (∀ t : String, charsLe ("" : String).data t.data = true) ∧
      (dictHas e "time" = false →
        dictGet e "time" "" = "" ∧ (draw_entry_card e).timeText = "00:00" ∧
          (draw_entry_card e).y = top_margin) ∧
      (dictHas e "system" = false → (draw_entry_card e).systemText = "") ∧
      (dictHas e "message" = false → (draw_entry_card e).messageText = "") ∧
      (dictHas e "severity" = false → (draw_entry_card e).color = "#0052CC") := by
  refine ⟨length_renderCards es, sortEntries_sorted es, fun t => by simp [charsLe], ?_, ?_, ?_, ?_⟩
  · intro h
    have hget : dictGet e "time" "00:00" = "00:00" := dictGet_default h
    have hpc : parseClock (dictGet e "time" "00:00") = some (0, 0) := by
      rw [hget]
      decide
    refine ⟨dictGet_default h, ?_, ?_⟩
    · simp [draw_entry_card, hget]
    · simp only [draw_entry_card, hpc]
      norm_num [start_hour, end_hour, top_margin, row_height]
  · intro h
    simp [draw_entry_card, dictGet_default h]
  · intro h
    simp [draw_entry_card, dictGet_default h]
  · intro h
    simp [draw_entry_card, dictGet_default h, severityColor, SEVERITY_LEVELS, List.find?]

theorem render_total_on_dicts_witness :
    (renderCards [([] : PyDict)]).length = 1 ∧
      dictHas ([] : PyDict) "time" = false ∧
      (draw_entry_card ([] : PyDict)).timeText = "00:00" ∧
      (draw_entry_card ([] : PyDict)).y = top_margin ∧
      (draw_entry_card ([] : PyDict)).systemText = "" ∧
      (draw_entry_card ([] : PyDict)).messageText = "" ∧
      (draw_entry_card ([] : PyDict)).color = "#0052CC" :=
  ⟨(render_total_on_dicts [[]] []).1, rfl,
    ((render_total_on_dicts [[]] []).2.2.2.1 rfl).2.1,
    ((render_total_on_dicts [[]] []).2.2.2.1 rfl).2.2,
    (render_total_on_dicts [[]] []).2.2.2.2.1 rfl,
    (render_total_on_dicts [[]] []).2.2.2.2.2.1 rfl,
    (render_total_on_dicts [[]] []).2.2.2.2.2.2 rfl⟩

/-! ## Claims about available_dates -/

theorem charsLe_refl (l : List Char) : charsLe l l = true := by
  induction l with
  | nil => rfl
  | cons x xs ih => simp [charsLe, Nat.lt_irrefl, ih]

theorem charsLe_append_cancel {xs ys : List Char} (t : List Char)
    (hlen : xs.length = ys.length) :
    charsLe (xs ++ t) (ys ++ t) = charsLe xs ys := by
  induction xs generalizing ys with
  | nil =>
    cases ys with
    | nil => simp [charsLe_refl, charsLe]
    | cons y ys => simp at hlen
  | cons x xs ih =>
    cases ys with
    | nil => simp at hlen
    | cons y ys =>
      simp only [List.cons_append, charsLe]
      split_ifs with h1 h2
      · rfl
      · rfl
      · exact ih (by simpa using hlen)

theorem stemOf_append (k : String) : stemOf (k ++ ".jsonl") = k := by
  unfold stemOf
  have hdata : (k ++ ".jsonl").data = k.data ++ (".jsonl" : String).data := rfl
  have hsix : (".jsonl" : String).data.length = 6 := by decide
  rw [hdata]
  simp only [List.length_append, hsix, Nat.add_sub_cancel]
  rw [List.take_left]

/-- C5 counterexample: with exactly one log file, named for the current
date, available_dates returns the single-element list containing today's
date string even though a backing file exists; the value [today] is
therefore not returned exactly when no backing file exists. -/
theorem available_dates_today_counterexample :
    available_dates [("2025-05-05", "")] "2025-05-05" = ["2025-05-05"] ∧
      ([("2025-05-05", "")] : FileSys) ≠ [] := by
  constructor
  · have hm : ([("2025-05-05" ++ ".jsonl")] : List String).mergeSort
        (fun a b => charsLe a.data b.data) = ["2025-05-05" ++ ".jsonl"] :=
      List.mergeSort_singleton _
    simp [available_dates, hm, stemOf_append]
    decide
  · decide

/-- C5 (amended): available_dates always returns at least one element;
when no backing file exists it returns exactly the single-element list
with today's date; when backing files exist it returns exactly their
dates (as a permutation of the stored keys), sorted descending
lexicographically (for the 10-character YYYY-MM-DD names the code
creates), with no synthetic entry added. -/
theorem available_dates_spec (fs : FileSys) (today : String)
    (hlen : ∀ kv ∈ fs, (kv.1 : String).length = 10) :
    available_dates fs today ≠ [] ∧
      (fs = [] → available_dates fs today = [today]) ∧
      (fs ≠ [] →
        List.Perm (available_dates fs today) (fs.map Prod.fst) ∧
          (available_dates fs today).Pairwise
            (fun a b => charsLe b.data a.data = true)) := by
  by_cases hfs : fs = []
  · subst hfs
    exact ⟨by simp [available_dates], fun _ => by simp [available_dates],
      fun h => absurd rfl h⟩
  · have hdlen :
        ((((fs.map (fun kv => kv.1 ++ ".jsonl")).mergeSort
            (fun a b => charsLe a.data b.data)).reverse).map stemOf).length = fs.length := by
      simp
    have hdne :
        (((fs.map (fun kv => kv.1 ++ ".jsonl")).mergeSort
            (fun a b => charsLe a.data b.data)).reverse).map stemOf ≠ [] := by
      intro hnil
      rw [hnil] at hdlen
      exact hfs (List.length_eq_zero.mp hdlen.symm)
    have hcond :
        ((((fs.map (fun kv => kv.1 ++ ".jsonl")).mergeSort
            (fun a b => charsLe a.data b.data)).reverse).map stemOf).isEmpty = false := by
      cases hm : (((fs.map (fun kv => kv.1 ++ ".jsonl")).mergeSort
          (fun a b => charsLe a.data b.data)).reverse).map stemOf with
      | nil => exact absurd hm hdne
      | cons a l => rfl
    have havail : available_dates fs today =
        (((fs.map (fun kv => kv.1 ++ ".jsonl")).mergeSort
            (fun a b => charsLe a.data b.data)).reverse).map stemOf := by
      simp [available_dates, hcond]
      intro hnil
      exfalso
      apply hfs
      have hl := congrArg List.length hnil
      simp at hl
      exact hl
    have hmapeq : (fs.map (fun kv => kv.1 ++ ".jsonl")).map stemOf = fs.map Prod.fst := by
      rw [List.map_map]
      apply List.map_congr_left
      intro kv hkv
      exact stemOf_append kv.1
    refine ⟨by rw [havail]; exact hdne, fun h => absurd h hfs, fun _ => ⟨?_, ?_⟩⟩
    · rw [havail]
      have hperm :
          List.Perm
            ((((fs.map (fun kv => kv.1 ++ ".jsonl")).mergeSort
              (fun a b => charsLe a.data b.data)).reverse).map stemOf)
            ((fs.map (fun kv => kv.1 ++ ".jsonl")).map stemOf) :=
        ((List.reverse_perm _).trans
          (List.mergeSort_perm (fs.map (fun kv => kv.1 ++ ".jsonl")) _)).map stemOf
      exact hmapeq ▸ hperm
    · rw [havail, List.pairwise_map]
      have hsorted := @List.sorted_mergeSort String
        (fun a b => charsLe a.data b.data)
        (fun a b c => charsLe_trans) (fun a b => charsLe_total _ _)
        (fs.map (fun kv => kv.1 ++ ".jsonl"))
      have hrev := List.pairwise_reverse.mpr hsorted
      apply List.Pairwise.imp_of_mem ?_ hrev
      intro a b ha hb hr
      have hamem : a ∈ fs.map (fun kv => kv.1 ++ ".jsonl") :=
        (List.mergeSort_perm _ _).mem_iff.mp (List.mem_reverse.mp ha)
      have hbmem : b ∈ fs.map (fun kv => kv.1 ++ ".jsonl") :=
        (List.mergeSort_perm _ _).mem_iff.mp (List.mem_reverse.mp hb)
      obtain ⟨kva, hkva, rfl⟩ := List.mem_map.mp hamem
      obtain ⟨kvb, hkvb, rfl⟩ := List.mem_map.mp hbmem
      rw [stemOf_append, stemOf_append]
      have hda : (kva.1 ++ ".jsonl").data = kva.1.data ++ (".jsonl" : String).data := rfl
      have hdb : (kvb.1 ++ ".jsonl").data = kvb.1.data ++ (".jsonl" : String).data := rfl
      rw [hda, hdb] at hr
      rwa [charsLe_append_cancel _ ?_] at hr
      have h1 := hlen kva hkva
      have h2 := hlen kvb hkvb
      have e1 : kva.1.data.length = kva.1.length := rfl
      have e2 : kvb.1.data.length = kvb.1.length := rfl
      rw [e1, e2, h1, h2]

theorem available_dates_spec_witness :
    available_dates [("2025-05-05", "x"), ("2025-05-04", "y")] "2025-05-06" ≠ [] ∧
      (List.Perm (available_dates [("2025-05-05", "x"), ("2025-05-04", "y")] "2025-05-06")
          (([("2025-05-05", "x"), ("2025-05-04", "y")] : FileSys).map Prod.fst) ∧
        (available_dates [("2025-05-05", "x"), ("2025-05-04", "y")] "2025-05-06").Pairwise
          (fun a b => charsLe b.data a.data = true)) :=
  ⟨(available_dates_spec [("2025-05-05", "x"), ("2025-05-04", "y")] "2025-05-06"
      (by decide)).1,
    (available_dates_spec [("2025-05-05", "x"), ("2025-05-04", "y")] "2025-05-06"
      (by decide)).2.2 (by decide)⟩

/-! ## Claims about malformed stored lines -/

theorem parseLines_none_of_mem {l : List (List Char)} {x : List Char}
    (hm : x ∈ l) (hx : jsonParseLine x = none) : parseLines l = none := by
  induction l with
  | nil => cases hm
  | cons a t ih =>
    rcases List.mem_cons.mp hm with rfl | hmem
    · simp [parseLines, hx]
    · cases ha : jsonParseLine a
      · simp [parseLines, ha]
      · simp [parseLines, ha, ih hmem]

theorem parseLines_isSome_of_all {l : List (List Char)}
    (h : ∀ x ∈ l, (jsonParseLine x).isSome) : (parseLines l).isSome := by
  induction l with
  | nil => simp [parseLines]
  | cons a t ih =>
    obtain ⟨ja, hja⟩ := Option.isSome_iff_exists.mp (h a (List.mem_cons_self a t))
    obtain ⟨jt, hjt⟩ :=
      Option.isSome_iff_exists.mp (ih fun x hx => h x (List.mem_cons_of_mem a hx))
    simp [parseLines, hja, hjt]

/-- C7: when the stored file for a date contains a non-blank line that
does not parse as JSON, load_entries for that date fails as a whole (the
exception of the list comprehension propagates); blank lines on the
other hand are filtered out before parsing and can never cause a
failure. -/
theorem malformed_line_fails_load (fs : FileSys) (d : String) (content : String)
    (hc : lookupFile fs d = some content) :
    ((∃ l ∈ fileLines content, isBlank l = false ∧ jsonParseLine l = none) →
      load_entries fs d = none) ∧
      ((∀ l ∈ fileLines content, isBlank l = false → (jsonParseLine l).isSome) →
        (load_entries fs d).isSome) := by
  unfold load_entries
  rw [hc]
  constructor
  · rintro ⟨l, hl, hb, hn⟩
    exact parseLines_none_of_mem (List.mem_filter.mpr ⟨hl, by simp [hb]⟩) hn
  · intro hall
    apply parseLines_isSome_of_all
    intro x hx
    have hmf := List.mem_filter.mp hx
    exact hall x hmf.1 (by simpa using hmf.2)

set_option maxRecDepth 10000 in
theorem malformed_line_fails_load_witness :
    lookupFile [("2025-01-01", "\x7b\x7d\n\nnope\n")] "2025-01-01" =
        some "\x7b\x7d\n\nnope\n" ∧
      (∃ l ∈ fileLines "\x7b\x7d\n\nnope\n", isBlank l = false ∧ jsonParseLine l = none) ∧
      load_entries [("2025-01-01", "\x7b\x7d\n\nnope\n")] "2025-01-01" = none ∧
      lookupFile [("2025-01-01", "\x7b\x7d\n\n")] "2025-01-01" = some "\x7b\x7d\n\n" ∧
      (load_entries [("2025-01-01", "\x7b\x7d\n\n")] "2025-01-01").isSome :=
  ⟨rfl,
    ⟨['n', 'o', 'p', 'e'], by decide, rfl, rfl⟩,
    (malformed_line_fails_load [("2025-01-01", "\x7b\x7d\n\nnope\n")] "2025-01-01"
        "\x7b\x7d\n\nnope\n" rfl).1
      ⟨['n', 'o', 'p', 'e'], by decide, rfl, rfl⟩,
    rfl,
    (malformed_line_fails_load [("2025-01-01", "\x7b\x7d\n\n")] "2025-01-01"
        "\x7b\x7d\n\n" rfl).2 (by decide)⟩

/-! ## Round trip of json.dumps and json.loads on stored entries -/

theorem hexVal_hexDigit {n : Nat} (h : n < 16) : hexVal (hexDigit n) = some n := by
  interval_cases n <;> decide

theorem skipWs_cons_false {c : Char} (r : List Char) (h : jsonWs c = false) :
    skipWs (c :: r) = c :: r := by
  simp [skipWs, h]

set_option maxHeartbeats 1600000 in
theorem decodeEscape_control {c : Char} (h : c.toNat < 32) (X : List Char) :
    decodeEscape ('u' :: '0' :: '0' :: hexDigit (c.toNat / 16) :: hexDigit (c.toNat % 16) :: X) =
      some (c, X) := by
  have h1 : hexVal (hexDigit (c.toNat / 16)) = some (c.toNat / 16) :=
    hexVal_hexDigit (by omega)
  have h2 : hexVal (hexDigit (c.toNat % 16)) = some (c.toNat % 16) :=
    hexVal_hexDigit (by omega)
  have hn : hex4 0 0 (c.toNat / 16) (c.toNat % 16) = c.toNat := by
    unfold hex4
    omega
  have h0 : hexVal '0' = some 0 := by decide
  rw [decodeEscape]
  simp only [h0, h1, h2, hn]
  rw [if_neg (by omega)]
  rw [Char.ofNat_toNat]

theorem parseStringAux_escape {f : Nat} {acc rest2 : List Char} {d : Char} {tail : List Char}
    (hdec : decodeEscape tail = some (d, rest2)) :
    parseStringAux (f + 1) acc ('\\' :: tail) = parseStringAux f (d :: acc) rest2 := by
  simp [parseStringAux, hdec]

theorem parseStringAux_plain {f : Nat} {acc : List Char} {c : Char} {X : List Char}
    (h1 : ¬c = '"') (h2 : ¬c = '\\') (h3 : ¬c.toNat < 32) :
    parseStringAux (f + 1) acc (c :: X) = parseStringAux f (c :: acc) X := by
  simp [parseStringAux, h1, h2, h3]

theorem parseStringAux_rt (l : List Char) : ∀ fuel acc rest,
    (escapeList l).length < fuel →
    parseStringAux fuel acc (escapeList l ++ '"' :: rest) = some (⟨acc.reverse ++ l⟩, rest) := by
  induction l with
  | nil =>
    intro fuel acc rest hf
    cases fuel with
    | zero => omega
    | succ f =>
      simp [escapeList, parseStringAux]
  | cons c l ih =>
    intro fuel acc rest hf
    have hesc : escapeList (c :: l) = escapeChar c ++ escapeList l := rfl
    rw [hesc] at hf ⊢
    by_cases hq : c = '"'
    · subst hq
      have he : escapeChar '"' = ['\\', '"'] := rfl
      rw [he] at hf ⊢
      cases fuel with
      | zero => omega
      | succ f =>
        simp only [List.cons_append, List.nil_append, List.append_assoc]
        rw [parseStringAux_escape (show decodeEscape ('"' :: (escapeList l ++ '"' :: rest)) =
          some ('"', escapeList l ++ '"' :: rest) from rfl)]
        rw [ih f ('"' :: acc) rest (by simp at hf ⊢; omega)]
        simp
    · by_cases hbs : c = '\\'
      · subst hbs
        have he : escapeChar '\\' = ['\\', '\\'] := rfl
        rw [he] at hf ⊢
        cases fuel with
        | zero => omega
        | succ f =>
          simp only [List.cons_append, List.nil_append, List.append_assoc]
          rw [parseStringAux_escape (show decodeEscape ('\\' :: (escapeList l ++ '"' :: rest)) =
            some ('\\', escapeList l ++ '"' :: rest) from rfl)]
          rw [ih f ('\\' :: acc) rest (by simp at hf ⊢; omega)]
          simp
      · by_cases hnl : c = '\n'
        · subst hnl
          have he : escapeChar '\n' = ['\\', 'n'] := rfl
          rw [he] at hf ⊢
          cases fuel with
          | zero => omega
          | succ f =>
            simp only [List.cons_append, List.nil_append, List.append_assoc]
            rw [parseStringAux_escape (show decodeEscape ('n' :: (escapeList l ++ '"' :: rest)) =
              some ('\n', escapeList l ++ '"' :: rest) from rfl)]
            rw [ih f ('\n' :: acc) rest (by simp at hf ⊢; omega)]
            simp
        · by_cases hcr : c = '\r'
          · subst hcr
            have he : escapeChar '\r' = ['\\', 'r'] := rfl
            rw [he] at hf ⊢
            cases fuel with
            | zero => omega
            | succ f =>
              simp only [List.cons_append, List.nil_append, List.append_assoc]
              rw [parseStringAux_escape (show decodeEscape ('r' :: (escapeList l ++ '"' :: rest)) =
                some ('\r', escapeList l ++ '"' :: rest) from rfl)]
              rw [ih f ('\r' :: acc) rest (by simp at hf ⊢; omega)]
              simp
          · by_cases hta : c = '\t'
            · subst hta
              have he : escapeChar '\t' = ['\\', 't'] := rfl
              rw [he] at hf ⊢
              cases fuel with
              | zero => omega
              | succ f =>
                simp only [List.cons_append, List.nil_append, List.append_assoc]
                rw [parseStringAux_escape (show decodeEscape
                  ('t' :: (escapeList l ++ '"' :: rest)) =
                  some ('\t', escapeList l ++ '"' :: rest) from rfl)]
                rw [ih f ('\t' :: acc) rest (by simp at hf ⊢; omega)]
                simp
            · by_cases hbb : c = '\x08'
              · subst hbb
                have he : escapeChar '\x08' = ['\\', 'b'] := rfl
                rw [he] at hf ⊢
                cases fuel with
                | zero => omega
                | succ f =>
                  simp only [List.cons_append, List.nil_append, List.append_assoc]
                  rw [parseStringAux_escape (show decodeEscape
                    ('b' :: (escapeList l ++ '"' :: rest)) =
                    some ('\x08', escapeList l ++ '"' :: rest) from rfl)]
                  rw [ih f ('\x08' :: acc) rest (by simp at hf ⊢; omega)]
                  simp
              · by_cases hff : c = '\x0c'
                · subst hff
                  have he : escapeChar '\x0c' = ['\\', 'f'] := rfl
                  rw [he] at hf ⊢
                  cases fuel with
                  | zero => omega
                  | succ f =>
                    simp only [List.cons_append, List.nil_append, List.append_assoc]
                    rw [parseStringAux_escape (show decodeEscape
                      ('f' :: (escapeList l ++ '"' :: rest)) =
                      some ('\x0c', escapeList l ++ '"' :: rest) from rfl)]
                    rw [ih f ('\x0c' :: acc) rest (by simp at hf ⊢; omega)]
                    simp
                · by_cases hctl : c.toNat < 32
                  · have he : escapeChar c =
                        ['\\', 'u', '0', '0', hexDigit (c.toNat / 16), hexDigit (c.toNat % 16)] := by
                      unfold escapeChar
                      rw [if_neg hq, if_neg hbs, if_neg hnl, if_neg hcr, if_neg hta,
                        if_neg hbb, if_neg hff, if_pos hctl]
                    rw [he] at hf ⊢
                    cases fuel with
                    | zero => omega
                    | succ f =>
                      simp only [List.cons_append, List.nil_append, List.append_assoc]
                      rw [parseStringAux_escape (decodeEscape_control hctl _)]
                      rw [ih f (c :: acc) rest (by simp at hf ⊢; omega)]
                      simp
                  · have he : escapeChar c = [c] := by
                      unfold escapeChar
                      rw [if_neg hq, if_neg hbs, if_neg hnl, if_neg hcr, if_neg hta,
                        if_neg hbb, if_neg hff, if_neg hctl]
                    rw [he] at hf ⊢
                    cases fuel with
                    | zero => omega
                    | succ f =>
                      simp only [List.cons_append, List.nil_append]
                      rw [parseStringAux_plain hq hbs hctl]
                      rw [ih f (c :: acc) rest (by simp at hf ⊢; omega)]
                      simp

theorem parseString_rt (x : String) (rest : List Char) :
    parseString (escapeList x.data ++ '"' :: rest) = some (x, rest) := by
  unfold parseString
  rw [parseStringAux_rt x.data ((escapeList x.data ++ '"' :: rest).length + 1) [] rest
    (by simp; omega)]
  simp

theorem skipWs_space (X : List Char) : skipWs (' ' :: X) = skipWs X := by
  simp [skipWs, jsonWs]

theorem skipWs_quote (X : List Char) : skipWs ('"' :: X) = '"' :: X :=
  skipWs_cons_false _ (by decide)

theorem skipWs_colon (X : List Char) : skipWs (':' :: X) = ':' :: X :=
  skipWs_cons_false _ (by decide)

theorem skipWs_comma (X : List Char) : skipWs (',' :: X) = ',' :: X :=
  skipWs_cons_false _ (by decide)

theorem skipWs_lbrace (X : List Char) : skipWs ('{' :: X) = '{' :: X :=
  skipWs_cons_false _ (by decide)

theorem skipWs_rbrace (X : List Char) : skipWs ('}' :: X) = '}' :: X :=
  skipWs_cons_false _ (by decide)

theorem parseMembers_skip_space (f : Nat) (X : List Char) :
    parseMembers (f + 1) (' ' :: X) = parseMembers (f + 1) X := by
  simp only [parseMembers, skipWs_space]

theorem parseMembers_rt (kvs : List (String × String)) :
    ∀ fuel rest, kvs ≠ [] → kvs.length + 1 < fuel →
      parseMembers fuel (joinMembers (kvs.map dumpMemberChars) ++ '}' :: rest) =
        some (kvs.map (fun kv => (kv.1, Json.str kv.2)), rest) := by
  induction kvs with
  | nil => intro _ _ h _; exact absurd rfl h
  | cons kv tl ih =>
    intro fuel rest _ hf
    obtain ⟨f, rfl⟩ : ∃ f, fuel = f + 2 := ⟨fuel - 2, by simp at hf; omega⟩
    cases tl with
    | nil =>
      simp only [List.map_cons, List.map_nil, joinMembers, dumpMemberChars, dumpStringChars,
        List.cons_append, List.nil_append, List.append_assoc]
      simp only [parseMembers, parseVal, skipWs_quote, skipWs_colon, skipWs_space,
        skipWs_rbrace, parseString_rt]
    | cons kv2 tl2 =>
      have hjoin : joinMembers (dumpMemberChars kv :: dumpMemberChars kv2 ::
          tl2.map dumpMemberChars) = dumpMemberChars kv ++ ',' :: ' ' ::
          joinMembers (dumpMemberChars kv2 :: tl2.map dumpMemberChars) := rfl
      have ihh := ih (f + 1) rest (by simp) (by simp at hf ⊢; omega)
      rw [List.map_cons, List.map_cons, hjoin]
      rw [List.map_cons] at ihh
      generalize hJ : joinMembers (dumpMemberChars kv2 :: tl2.map dumpMemberChars) = J at ihh ⊢
      simp only [dumpMemberChars, dumpStringChars, List.cons_append, List.nil_append,
        List.append_assoc]
      simp only [parseMembers, parseVal, skipWs_quote, skipWs_colon, skipWs_space,
        skipWs_comma, parseString_rt]
      simp only [parseMembers] at ihh
      rw [ihh]
      simp

theorem parseVal_obj_nonempty (f : Nat) (kv : String × String) (ms : List (List Char))
    (rest : List Char) :
    parseVal (f + 1) ('{' :: (joinMembers (dumpMemberChars kv :: ms) ++ '}' :: rest)) =
      match parseMembers f (joinMembers (dumpMemberChars kv :: ms) ++ '}' :: rest) with
      | some (msv, r3) => some (.obj msv, r3)
      | none => none := by
  cases ms with
  | nil => rfl
  | cons m ms2 => rfl

theorem parseVal_dumpObj (kvs : List (String × String)) (fuel : Nat) (rest : List Char)
    (hne : kvs ≠ []) (hf : kvs.length + 2 < fuel) :
    parseVal fuel (dumpObjChars kvs ++ rest) =
      some (.obj (kvs.map fun kv => (kv.1, Json.str kv.2)), rest) := by
  obtain ⟨f, rfl⟩ : ∃ f, fuel = f + 1 := ⟨fuel - 1, by omega⟩
  obtain ⟨kv, tl, rfl⟩ : ∃ kv tl, kvs = kv :: tl := by
    cases kvs with
    | nil => exact absurd rfl hne
    | cons kv tl => exact ⟨kv, tl, rfl⟩
  have hform : dumpObjChars (kv :: tl) ++ rest =
      '{' :: (joinMembers (dumpMemberChars kv :: tl.map dumpMemberChars) ++ '}' :: rest) := by
    simp [dumpObjChars, List.append_assoc]
  rw [hform, parseVal_obj_nonempty]
  have hm := parseMembers_rt (kv :: tl) (f) rest (by simp) (by simp at hf ⊢; omega)
  rw [List.map_cons] at hm
  rw [hm]

theorem jsonParseLine_dump (kvs : List (String × String)) (hne : kvs ≠ []) :
    jsonParseLine (dumpObjChars kvs) =
      some (.obj (kvs.map fun kv => (kv.1, Json.str kv.2))) := by
  unfold jsonParseLine
  have hlen : kvs.length + 2 < (dumpObjChars kvs).length + 1 := by
    have : kvs.length ≤ (joinMembers (kvs.map dumpMemberChars)).length := by
      clear hne
      induction kvs with
      | nil => simp [joinMembers]
      | cons kv tl ih =>
        cases tl with
        | nil =>
          simp [joinMembers, dumpMemberChars, dumpStringChars]
        | cons kv2 tl2 =>
          have hjoin : joinMembers (dumpMemberChars kv :: dumpMemberChars kv2 ::
              tl2.map dumpMemberChars) = dumpMemberChars kv ++ ',' :: ' ' ::
              joinMembers (dumpMemberChars kv2 :: tl2.map dumpMemberChars) := rfl
          simp only [List.map_cons] at ih ⊢
          rw [hjoin]
          simp only [List.length_append, List.length_cons, List.length_map]
          simp at ih ⊢
          omega
    simp only [dumpObjChars, List.length_cons, List.length_append]
    simp at this ⊢
    omega
  have hv := parseVal_dumpObj kvs ((dumpObjChars kvs).length + 1) [] hne hlen
  rw [List.append_nil] at hv
  rw [hv]
  simp [skipWs]

/-! ## Storage content after a sequence of appends -/

theorem lookupFile_appendFile (fs : FileSys) (d s : String) :
    lookupFile (appendFile fs d s) d = some ((lookupFile fs d).getD "" ++ s) := by
  induction fs with
  | nil => simp [appendFile, lookupFile]
  | cons kv rest ih =>
    obtain ⟨k, c⟩ := kv
    by_cases h : k = d
    · subst h
      simp [appendFile, lookupFile]
    · simp [appendFile, lookupFile, h, ih]

theorem string_append_empty (s : String) : s ++ "" = s := by
  cases s with
  | mk data =>
    show String.mk (data ++ []) = String.mk data
    rw [List.append_nil]

theorem string_empty_append (s : String) : "" ++ s = s := rfl

theorem string_append_assoc (a b c : String) : a ++ b ++ c = a ++ (b ++ c) := by
  cases a with
  | mk da =>
    cases b with
    | mk db =>
      cases c with
      | mk dc =>
        show String.mk (da ++ db ++ dc) = String.mk (da ++ (db ++ dc))
        rw [List.append_assoc]

theorem lookupFile_appendEntries (d : String) (es : List LogEntry) :
    ∀ (fs : FileSys) (c : String), lookupFile fs d = some c →
      lookupFile (appendEntries fs d es) d =
        some (c ++ es.foldr (fun e acc =>
          (⟨dumpObjChars e.payload ++ ['\n']⟩ : String) ++ acc) "") := by
  induction es with
  | nil =>
    intro fs c h
    simpa [appendEntries, string_append_empty] using h
  | cons e tl ih =>
    intro fs c h
    have h1 : lookupFile (append_entry fs d e.payload) d =
        some (c ++ (⟨dumpObjChars e.payload ++ ['\n']⟩ : String)) := by
      unfold append_entry
      rw [lookupFile_appendFile, h]
      rfl
    have h2 := ih (append_entry fs d e.payload) _ h1
    rw [show appendEntries fs d (e :: tl) = appendEntries (append_entry fs d e.payload) d tl
      from rfl]
    rw [h2, List.foldr_cons, string_append_assoc]

/-! ## The stored text of a run of appends splits back into its lines -/

theorem normalizeNewlines_id : ∀ l : List Char, (∀ x ∈ l, x ≠ '\r') →
    normalizeNewlines l = l := by
  intro l
  induction l with
  | nil => intro h; rfl
  | cons c r ih =>
    intro h
    have hc : c ≠ '\r' := h c (List.mem_cons_self c r)
    have hr := ih (fun x hx => h x (List.mem_cons_of_mem c hx))
    simp [normalizeNewlines, hc, hr]

theorem hexDigit_sane (n : Nat) : hexDigit n ≠ '\n' ∧ hexDigit n ≠ '\r' := by
  unfold hexDigit
  split <;> exact ⟨by decide, by decide⟩

theorem escapeChar_sane (c : Char) : ∀ x ∈ escapeChar c, x ≠ '\n' ∧ x ≠ '\r' := by
  intro x hx
  unfold escapeChar at hx
  split_ifs at hx with h1 h2 h3 h4 h5 h6 h7 h8
  all_goals simp only [List.mem_cons, List.not_mem_nil, or_false] at hx
  · rcases hx with rfl | rfl <;> exact ⟨by decide, by decide⟩
  · rcases hx with rfl | rfl <;> exact ⟨by decide, by decide⟩
  · rcases hx with rfl | rfl <;> exact ⟨by decide, by decide⟩
  · rcases hx with rfl | rfl <;> exact ⟨by decide, by decide⟩
  · rcases hx with rfl | rfl <;> exact ⟨by decide, by decide⟩
  · rcases hx with rfl | rfl <;> exact ⟨by decide, by decide⟩
  · rcases hx with rfl | rfl <;> exact ⟨by decide, by decide⟩
  · rcases hx with rfl | rfl | rfl | rfl | rfl | rfl
    · exact ⟨by decide, by decide⟩
    · exact ⟨by decide, by decide⟩
    · exact ⟨by decide, by decide⟩
    · exact ⟨by decide, by decide⟩
    · exact hexDigit_sane _
    · exact hexDigit_sane _
  · subst hx
    constructor
    · intro he
      rw [he] at h8
      exact h8 (by decide)
    · intro he
      rw [he] at h8
      exact h8 (by decide)

theorem escapeList_sane (l : List Char) : ∀ x ∈ escapeList l, x ≠ '\n' ∧ x ≠ '\r' := by
  induction l with
  | nil => intro x hx; cases hx
  | cons c r ih =>
    intro x hx
    rcases List.mem_append.mp hx with h | h
    · exact escapeChar_sane c x h
    · exact ih x h

theorem dumpString_sane (s : String) : ∀ x ∈ dumpStringChars s, x ≠ '\n' ∧ x ≠ '\r' := by
  intro x hx
  unfold dumpStringChars at hx
  rcases List.mem_cons.mp hx with rfl | hx2
  · exact ⟨by decide, by decide⟩
  · rcases List.mem_append.mp hx2 with h | h
    · exact escapeList_sane _ x h
    · simp only [List.mem_singleton] at h
      subst h
      exact ⟨by decide, by decide⟩

theorem dumpMember_sane (kv : String × String) :
    ∀ x ∈ dumpMemberChars kv, x ≠ '\n' ∧ x ≠ '\r' := by
  intro x hx
  unfold dumpMemberChars at hx
  rcases List.mem_append.mp hx with h | h
  · exact dumpString_sane _ x h
  · rcases List.mem_cons.mp h with rfl | h2
    · exact ⟨by decide, by decide⟩
    · rcases List.mem_cons.mp h2 with rfl | h3
      · exact ⟨by decide, by decide⟩
      · exact dumpString_sane _ x h3

theorem joinMembers_sane : ∀ ms : List (List Char),
    (∀ m ∈ ms, ∀ x ∈ m, x ≠ '\n' ∧ x ≠ '\r') →
    ∀ x ∈ joinMembers ms, x ≠ '\n' ∧ x ≠ '\r'
  | [], _, x, hx => by cases hx
  | [m], h, x, hx => h m (by simp) x hx
  | m :: m2 :: ms, h, x, hx => by
    have hjoin : joinMembers (m :: m2 :: ms) = m ++ ',' :: ' ' :: joinMembers (m2 :: ms) := rfl
    rw [hjoin] at hx
    rcases List.mem_append.mp hx with hm | hm
    · exact h m (by simp) x hm
    · rcases List.mem_cons.mp hm with rfl | hm2
      · exact ⟨by decide, by decide⟩
      · rcases List.mem_cons.mp hm2 with rfl | hm3
        · exact ⟨by decide, by decide⟩
        · exact joinMembers_sane (m2 :: ms) (fun m' hm' => h m' (by simp [hm'])) x hm3

theorem dumpObj_sane (kvs : List (String × String)) :
    ∀ x ∈ dumpObjChars kvs, x ≠ '\n' ∧ x ≠ '\r' := by
  intro x hx
  unfold dumpObjChars at hx
  rcases List.mem_cons.mp hx with rfl | hx2
  · exact ⟨by decide, by decide⟩
  · rcases List.mem_append.mp hx2 with h | h
    · refine joinMembers_sane _ ?_ x h
      intro m hm
      obtain ⟨kv, hkv, rfl⟩ := List.mem_map.mp hm
      exact fun y hy => dumpMember_sane kv y hy
    · simp only [List.mem_singleton] at h
      subst h
      exact ⟨by decide, by decide⟩

theorem splitOnChar_ne_nil (sep : Char) : ∀ l : List Char, splitOnChar sep l ≠ [] := by
  intro l
  induction l with
  | nil => simp [splitOnChar]
  | cons c r ih =>
    rw [splitOnChar]
    cases hs : splitOnChar sep r with
    | nil => exact absurd hs ih
    | cons p ps =>
      by_cases hc : c = sep <;> simp [hc]

theorem splitOnChar_piece {p : List Char} (rest : List Char)
    (hp : ∀ x ∈ p, x ≠ '\n') :
    splitOnChar '\n' (p ++ '\n' :: rest) = p :: splitOnChar '\n' rest := by
  induction p with
  | nil =>
    rw [List.nil_append, splitOnChar]
    cases hs : splitOnChar '\n' rest with
    | nil => exact absurd hs (splitOnChar_ne_nil '\n' rest)
    | cons q qs => simp
  | cons x xs ih =>
    have hx : x ≠ '\n' := hp x (List.mem_cons_self x xs)
    rw [List.cons_append, splitOnChar,
      ih (fun y hy => hp y (List.mem_cons_of_mem x hy))]
    simp [hx]

theorem fold_content_data (es : List LogEntry) :
    (es.foldr (fun e acc => (⟨dumpObjChars e.payload ++ ['\n']⟩ : String) ++ acc) "").data =
      es.foldr (fun e acc => dumpObjChars e.payload ++ '\n' :: acc) [] := by
  induction es with
  | nil => rfl
  | cons e tl ih =>
    rw [List.foldr_cons, List.foldr_cons]
    rw [show ((⟨dumpObjChars e.payload ++ ['\n']⟩ : String) ++
      (tl.foldr (fun e acc => (⟨dumpObjChars e.payload ++ ['\n']⟩ : String) ++ acc) "")).data =
      (dumpObjChars e.payload ++ ['\n']) ++
        (tl.foldr (fun e acc => (⟨dumpObjChars e.payload ++ ['\n']⟩ : String) ++ acc) "").data
      from rfl]
    rw [ih, List.append_assoc]
    rfl

theorem splitOnChar_content (es : List LogEntry) :
    splitOnChar '\n' (es.foldr (fun e acc => dumpObjChars e.payload ++ '\n' :: acc) []) =
      (es.map fun e => dumpObjChars e.payload) ++ [[]] := by
  induction es with
  | nil => rfl
  | cons e tl ih =>
    rw [List.foldr_cons,
      splitOnChar_piece _ (fun x hx => (dumpObj_sane e.payload x hx).1), ih]
    rfl

theorem isBlank_dump (kvs : List (String × String)) : isBlank (dumpObjChars kvs) = false := by
  unfold dumpObjChars isBlank
  simp [pyIsSpace]

theorem parseLines_map_dump (es : List LogEntry) :
    parseLines (es.map fun e => dumpObjChars e.payload) = some (es.map LogEntry.json) := by
  induction es with
  | nil => rfl
  | cons e tl ih =>
    rw [List.map_cons, List.map_cons]
    rw [show parseLines (dumpObjChars e.payload :: tl.map fun e => dumpObjChars e.payload) =
      (match jsonParseLine (dumpObjChars e.payload),
          parseLines (tl.map fun e => dumpObjChars e.payload) with
        | some j, some js => some (j :: js)
        | _, _ => none) from rfl]
    rw [jsonParseLine_dump e.payload (by simp [LogEntry.payload]), ih]
    rfl

theorem fold_content_mem {es : List LogEntry} {x : Char}
    (hx : x ∈ es.foldr (fun e acc => dumpObjChars e.payload ++ '\n' :: acc) []) :
    x = '\n' ∨ ∃ e ∈ es, x ∈ dumpObjChars e.payload := by
  induction es with
  | nil => cases hx
  | cons e tl ih =>
    rw [List.foldr_cons] at hx
    rcases List.mem_append.mp hx with hm | hm
    · exact Or.inr ⟨e, by simp, hm⟩
    · rcases List.mem_cons.mp hm with rfl | hm2
      · exact Or.inl rfl
      · rcases ih hm2 with hnl | ⟨e2, he2, hme⟩
        · exact Or.inl hnl
        · exact Or.inr ⟨e2, by simp [he2], hme⟩

/-- C1: starting from no file for the date, any sequence of append_entry
calls followed by load_entries returns exactly the appended records in
call order, each one structurally identical (all four fields preserved
verbatim, including non-ASCII text, via the injective `LogEntry.json`
encoding). -/
theorem append_load_round_trip (fs : FileSys) (d : String) (es : List LogEntry)
    (h : lookupFile fs d = none) :
    load_entries (appendEntries fs d es) d = some (es.map LogEntry.json) := by
  cases es with
  | nil => simpa [appendEntries] using load_entries_missing_file fs d h
  | cons e tl =>
    have h1 : lookupFile (append_entry fs d e.payload) d =
        some (⟨dumpObjChars e.payload ++ ['\n']⟩ : String) := by
      unfold append_entry
      rw [lookupFile_appendFile, h]
      rfl
    have h2 := lookupFile_appendEntries d tl _ _ h1
    rw [show appendEntries fs d (e :: tl) = appendEntries (append_entry fs d e.payload) d tl
      from rfl]
    unfold load_entries
    rw [h2]
    simp only []
    rw [show (⟨dumpObjChars e.payload ++ ['\n']⟩ : String) ++
        tl.foldr (fun e acc => (⟨dumpObjChars e.payload ++ ['\n']⟩ : String) ++ acc) "" =
        (e :: tl).foldr (fun e acc => (⟨dumpObjChars e.payload ++ ['\n']⟩ : String) ++ acc) ""
      from rfl]
    unfold fileLines
    rw [fold_content_data]
    rw [normalizeNewlines_id _ ?san]
    case san =>
      intro x hx
      rcases fold_content_mem hx with rfl | ⟨e2, _, hme⟩
      · decide
      · exact (dumpObj_sane e2.payload x hme).2
    rw [splitOnChar_content]
    rw [List.filter_append]
    rw [show (([[]] : List (List Char)).filter fun l => !isBlank l) = [] from rfl]
    rw [List.append_nil]
    rw [List.filter_eq_self.mpr ?nb]
    case nb =>
      intro a ha
      obtain ⟨e2, _, rfl⟩ := List.mem_map.mp ha
      simp [isBlank_dump]
    exact parseLines_map_dump (e :: tl)

set_option maxRecDepth 100000 in
theorem append_load_round_trip_witness :
    lookupFile [] "2025-05-05" = none ∧
      load_entries
          (appendEntries [] "2025-05-05"
            [⟨"12:34:56", "Radar", "Alert", "Uçuş kontrolü ✓"⟩,
             ⟨"13:00:00", "Motor Kontrol", "Normal", "tamam"⟩])
          "2025-05-05" =
        some [(⟨"12:34:56", "Radar", "Alert", "Uçuş kontrolü ✓"⟩ : LogEntry).json,
              (⟨"13:00:00", "Motor Kontrol", "Normal", "tamam"⟩ : LogEntry).json] :=
  ⟨rfl,
    append_load_round_trip [] "2025-05-05"
      [⟨"12:34:56", "Radar", "Alert", "Uçuş kontrolü ✓"⟩,
       ⟨"13:00:00", "Motor Kontrol", "Normal", "tamam"⟩] rfl⟩
